import Mathlib

/-!
Verification of the draw-recording tree of `hypothesis/internal/conjecture/datatree.py`.

The Python source is shallowly embedded: `TreeNode` (fields `bits`, `values`,
`transition`), the `DataTree` wrapper, and the `TreeRecordingObserver` cursor
operations `draw_bits` and `conclude_test`.  Python dicts used for `Branch`
transitions are modelled as association lists with insertion-order append
(`Children`), mutation is modelled by rebuilding the tree along the cursor's
path, and Python exceptions (`Flaky`, `AssertionError`, `IndexError`, and the
`NameError` produced by the undefined variable `existing` in `conclude_test`)
are modelled by an `Except` error type.
-/

namespace DataTreeSpec

/-- Trial statuses, from `hypothesis.internal.conjecture.data.Status`:
OVERRUN, INVALID, VALID, INTERESTING. -/
inductive Status : Type where
| overrun : Status
| invalid : Status
| valid : Status
| interesting : Status
deriving DecidableEq, Repr

/-- Errors the cursor protocol can raise.  `flaky` is the consistency error
(`hypothesis.errors.Flaky`); `assertionError` models a failing `assert`;
`indexError` models an out-of-range Python list subscript; `nameError` models
referencing an undefined Python name (as `conclude_test` does with
`existing`). -/
inductive Err : Type where
| flaky (msg : String) : Err
| assertionError : Err
| indexError : Err
| nameError (nm : String) : Err
deriving Repr

/-- The message of `TreeRecordingObserver.__inconsistent_generation`. -/
def inconsistentMsg : String :=
  "Inconsistent data generation! Data generation behaved differently between different runs. Is your data generation depending on external state?"

mutual
/-- `TreeNode` from datatree.py: `bits` (one bit-width per draw position),
`values` (one drawn value per position), and `transition` (None, a dict of
children, or a terminal Status). -/
inductive TreeNode : Type where
| mk (bits : List Nat) (values : List Nat) (transition : Transition) : TreeNode
/-- The `transition` attribute of a `TreeNode`: Python `None`, a dict mapping
values to child nodes (Branch), or a `Status` (Terminal). -/
inductive Transition : Type where
| none : Transition
| branch (children : Children) : Transition
| terminal (status : Status) : Transition
/-- An insertion-ordered association list modelling the Python dict used for
Branch transitions. -/
inductive Children : Type where
| nil : Children
| cons (key : Nat) (child : TreeNode) (rest : Children) : Children
end

/-- The `bits` attribute. -/
def TreeNode.bits : TreeNode → List Nat
| .mk b _ _ => b

/-- The `values` attribute. -/
def TreeNode.values : TreeNode → List Nat
| .mk _ v _ => v

/-- The `transition` attribute. -/
def TreeNode.transition : TreeNode → Transition
| .mk _ _ t => t

/-- A freshly constructed `TreeNode()`: empty runs, Live (None) transition. -/
def TreeNode.empty : TreeNode := .mk [] [] .none

/-- Python `dict.get`-style lookup: first matching key. -/
def Children.lookup : Children → Nat → Option TreeNode
| .nil, _ => Option.none
| .cons k c rest, w => if k = w then some c else rest.lookup w

/-- Python `dict[k] = c` / `dict.setdefault(k, c)` when absent: replace the
binding if the key is present, otherwise append at the end. -/
def Children.insert : Children → Nat → TreeNode → Children
| .nil, k, c => .cons k c .nil
| .cons k' c' rest, k, c =>
  if k' = k then .cons k' c rest else .cons k' c' (rest.insert k c)

/-- `TreeNode.split_at(i)` from datatree.py.  Builds the suffix child, reads
`self.values[i]` (IndexError if out of range), truncates `values` to `[:i]`
and `bits` to `[:i+1]`, and asserts the resulting lengths (`len(values) == i`
always holds once the subscript succeeded; `len(bits) == i+1` fails as an
AssertionError when `bits` is too short).  The transition becomes a singleton
Branch `{values[i]: child}`. -/
def TreeNode.split_at (t : TreeNode) (i : Nat) : Except Err TreeNode :=
  if i < t.values.length then
    if i < t.bits.length then
      .ok (.mk (t.bits.take (i+1)) (t.values.take i)
        (.branch (.cons (t.values.getD i 0)
          (.mk (t.bits.drop (i+1)) (t.values.drop (i+1)) t.transition) .nil)))
    else .error .assertionError
  else .error .indexError

/-- Whether the cursor stays on the current node (index advances by one) or
descends into the child keyed by the drawn value (index resets to 0). -/
inductive Move : Type where
| stay : Move
| down : Move
deriving DecidableEq, Repr

/-- The bit-width phase of `TreeRecordingObserver.draw_bits`: if `i` is within
the recorded `bits`, the recorded width must match (else Flaky); otherwise
`assert node.transition is None` and append the width. -/
def drawBitsPhase (m : TreeNode) (i nBits : Nat) : Except Err TreeNode :=
  if i < m.bits.length then
    if nBits = m.bits.getD i 0 then .ok m else .error (.flaky inconsistentMsg)
  else
    match m.transition with
    | .none => .ok (.mk (m.bits ++ [nBits]) m.values .none)
    | _ => .error .assertionError

/-- The value phase of `draw_bits`, acting on the node produced by the
bit-width phase: replay a matching recorded value, split on a mismatch (then
key the fresh child by the new value), append to a Live run, or index into a
Branch dict (`KeyError` handled by `setdefault`; a `Status` transition raises
`TypeError`, caught and turned into the consistency error after asserting the
status is not OVERRUN). -/
def drawValuesPhase (node1 : TreeNode) (i value : Nat) : Except Err (TreeNode × Move) :=
  if i < node1.values.length then
    if value = node1.values.getD i 0 then .ok (node1, .stay)
    else
      match node1.split_at i with
      | .error e => .error e
      | .ok n2 =>
        match n2.transition with
        | .branch cs =>
          .ok (.mk n2.bits n2.values (.branch (cs.insert value TreeNode.empty)), .down)
        | _ => .error .assertionError
  else
    match node1.transition with
    | .none => .ok (.mk node1.bits (node1.values ++ [value]) .none, .stay)
    | .branch cs =>
      match cs.lookup value with
      | some _ => .ok (node1, .down)
      | Option.none =>
        .ok (.mk node1.bits node1.values (.branch (cs.insert value TreeNode.empty)), .down)
    | .terminal s =>
      if s = Status.overrun then .error .assertionError
      else .error (.flaky inconsistentMsg)

/-- One `draw_bits(n_bits, forced, value)` call acting on the current node at
index `i` (the `forced` flag is accepted and ignored by the source).  The
`assert i < len(node.bits)` between the two phases is included. -/
def drawAtNode (m : TreeNode) (i nBits value : Nat) : Except Err (TreeNode × Move) :=
  match drawBitsPhase m i nBits with
  | .error e => .error e
  | .ok node1 =>
    if i < node1.bits.length then drawValuesPhase node1 i value
    else .error .assertionError

/-- One `conclude_test(status, interesting_origin)` call acting on the current
node at index `i`, for a non-OVERRUN status (the OVERRUN early return is in
`concludeStep`).  Unconsumed recorded values or a Branch transition raise the
consistency error before any mutation; a Terminal transition with a different
status evaluates the message `"..." % (existing.status.name, status)` whose
name `existing` is undefined in the source, so a NameError is raised instead
of the intended Flaky. -/
def concludeAtNode (m : TreeNode) (i : Nat) (status : Status) : Except Err TreeNode :=
  if i < m.values.length then .error (.flaky inconsistentMsg)
  else
    match m.transition with
    | .branch _ => .error (.flaky inconsistentMsg)
    | .terminal s => if s = status then .ok m else .error (.nameError "existing")
    | .none => .ok (.mk m.bits m.values (.terminal status))

/-- Fetch the node reached from `t` by descending through Branch children
along `path`. -/
def getNode : TreeNode → List Nat → Option TreeNode
| t, [] => some t
| t, v :: p =>
  match t.transition with
  | .branch cs =>
    match cs.lookup v with
    | some c => getNode c p
    | Option.none => Option.none
  | _ => Option.none

/-- Replace the node at `path` (mutation of the node the cursor references is
modelled by rebuilding the spine above it). -/
def setNode : TreeNode → List Nat → TreeNode → TreeNode
| _, [], n => n
| t, v :: p, n =>
  match t.transition with
  | .branch cs =>
    match cs.lookup v with
    | some c => .mk t.bits t.values (.branch (cs.insert v (setNode c p n)))
    | Option.none => t
  | _ => t

/-- The joint state of the tree and one recording cursor: the root node, the
path of branch keys leading to `current_node`, and `index_in_current_node`. -/
structure State : Type where
  root : TreeNode
  path : List Nat
  index : Nat

/-- `TreeRecordingObserver.draw_bits` as a state transformer. -/
def drawStep (nBits value : Nat) (s : State) : Except Err State :=
  match getNode s.root s.path with
  | Option.none => .error .assertionError
  | some node =>
    match drawAtNode node s.index nBits value with
    | .error e => .error e
    | .ok (node', .stay) => .ok ⟨setNode s.root s.path node', s.path, s.index + 1⟩
    | .ok (node', .down) => .ok ⟨setNode s.root s.path node', s.path ++ [value], 0⟩

/-- `TreeRecordingObserver.conclude_test` as a state transformer.  On OVERRUN
it returns immediately with nothing touched; the `interesting_origin`
argument `og` is accepted and ignored, as in the source. -/
def concludeStep (status : Status) (_og : Nat) (s : State) : Except Err State :=
  if status = Status.overrun then .ok s
  else
    match getNode s.root s.path with
    | Option.none => .error .assertionError
    | some node =>
      match concludeAtNode node s.index status with
      | .error e => .error e
      | .ok node' => .ok ⟨setNode s.root s.path node', s.path, s.index⟩

/-- One full trial fed to a cursor: the listed `draw_bits(n, _, v)` calls in
order, then one `conclude_test(status, og)`. -/
def runTrial : List (Nat × Nat) → Status → Nat → State → Except Err State
| [], status, og, s => concludeStep status og s
| (n, v) :: rest, status, og, s =>
  match drawStep n v s with
  | .error e => .error e
  | .ok s' => runTrial rest status og s'

/-- Cursor operations: a draw event, a conclusion, or discarding the cursor
and taking a fresh one from `DataTree.new_observer()`. -/
inductive Op : Type where
| draw (nBits value : Nat) : Op
| conclude (status : Status) (og : Nat) : Op
| newObserver : Op

/-- Apply one operation to the tree-plus-cursor state. -/
def applyOp : Op → State → Except Err State
| .draw n v, s => drawStep n v s
| .conclude st og, s => concludeStep st og s
| .newObserver, s => .ok ⟨s.root, [], 0⟩

/-- States reachable from a fresh `DataTree` (root `TreeNode()`) with its
first observer, by any sequence of successful cursor operations. -/
inductive Reachable : State → Prop where
| init : Reachable ⟨TreeNode.empty, [], 0⟩
| step {s s' : State} (op : Op) : Reachable s → applyOp op s = .ok s' → Reachable s'

/-- `DataTree` from datatree.py: the stored (never read) `cap` and the root. -/
structure DataTree : Type where
  cap : Nat
  root : TreeNode

/-- `DataTree.is_exhausted` exactly as in the source: `return False`,
unconditionally (the docstring promises True once the whole language has been
explored, but the body is a stub). -/
def DataTree.is_exhausted (_t : DataTree) : Bool := false

/-- Well-formedness of every node of a (sub)tree, as maintained by the cursor
protocol: a Live (None) or Terminal node has `len(bits) = len(values)` and a
Terminal status is never OVERRUN; a Branch node has `len(bits) =
len(values) + 1` (the discriminating draw's width is the last entry of `bits`)
and all its children are well-formed. -/
inductive GoodNode : TreeNode → Prop where
| live : ∀ (b v : List Nat), b.length = v.length → GoodNode (.mk b v .none)
| term : ∀ (b v : List Nat) (s : Status), b.length = v.length → s ≠ .overrun →
    GoodNode (.mk b v (.terminal s))
| branch : ∀ (b v : List Nat) (cs : Children), b.length = v.length + 1 →
    (∀ w c, cs.lookup w = some c → GoodNode c) → GoodNode (.mk b v (.branch cs))

/-- The per-state invariant: the whole tree is well-formed, the cursor's path
denotes a node, and the cursor index never exceeds that node's recorded
values. -/
def Inv (s : State) : Prop :=
  GoodNode s.root ∧ ∃ m, getNode s.root s.path = some m ∧ s.index ≤ m.values.length

/-- The shape facts claimed for a single node (no recursion into children). -/
def localShape (m : TreeNode) : Prop :=
  m.values.length ≤ m.bits.length ∧ m.bits.length ≤ m.values.length + 1 ∧
  (∀ s, m.transition = .terminal s → m.bits.length = m.values.length) ∧
  (∀ cs, m.transition = .branch cs → m.bits.length = m.values.length + 1)

/-- Positionwise preservation of a node's recorded runs below index `j`:
whatever later operations do to the node, entries of `values` at positions
`< j` and of `bits` at positions `< j` survive unchanged. -/
def LocalFut (j : Nat) (a b : TreeNode) : Prop :=
  (∀ k, k < j → k < a.values.length →
    k < b.values.length ∧ b.values.getD k 0 = a.values.getD k 0) ∧
  (∀ k, k < j → k < a.bits.length →
    k < b.bits.length ∧ b.bits.getD k 0 = a.bits.getD k 0)

/-- How a tree can evolve while a cursor sits at path `p`, index `j`: every
node strictly above the cursor keeps its runs and its branch edge toward the
cursor, and the cursor's node keeps all entries below `j`. -/
def Future : List Nat → Nat → TreeNode → TreeNode → Prop
| [], j, a, b => LocalFut j a b
| v :: p, j, a, b =>
  b.bits = a.bits ∧ b.values = a.values ∧
  ∃ cs cs', a.transition = .branch cs ∧ b.transition = .branch cs' ∧
    ∃ c c', cs.lookup v = some c ∧ cs'.lookup v = some c' ∧ Future p j c c'

/-- The first (bit-width) phase of a successful draw: either the width was
already recorded at `i` and matched, or `i` was one past the recorded widths,
the node was Live, and the width was appended. -/
def bitsOutcome (m : TreeNode) (i nBits : Nat) (node1 : TreeNode) : Prop :=
  (node1 = m ∧ i < m.bits.length ∧ m.bits.getD i 0 = nBits) ∨
  (node1 = .mk (m.bits ++ [nBits]) m.values .none ∧ i = m.bits.length ∧
    m.transition = .none)

/-- Case description of every successful `draw_bits` call on node `m` at
index `i`: the bit-width phase produced `node1`, and then the value either
replayed (stay), diverged (split, descend), extended a Live run (stay), or
selected/created a Branch child (descend). -/
def drawSpec (m : TreeNode) (i nBits value : Nat) (n' : TreeNode) (mv : Move) : Prop :=
  ∃ node1, bitsOutcome m i nBits node1 ∧
    node1.values = m.values ∧ i < node1.bits.length ∧ node1.bits.getD i 0 = nBits ∧
    ((i < m.values.length ∧ m.values.getD i 0 = value ∧ n' = node1 ∧ mv = .stay) ∨
     (i < m.values.length ∧ ¬ m.values.getD i 0 = value ∧ i < node1.bits.length ∧
       n' = .mk (node1.bits.take (i+1)) (m.values.take i)
         (.branch (.cons (m.values.getD i 0)
           (.mk (node1.bits.drop (i+1)) (m.values.drop (i+1)) node1.transition)
           (.cons value TreeNode.empty .nil))) ∧ mv = .down) ∨
     (m.values.length ≤ i ∧ node1.transition = .none ∧
       n' = .mk node1.bits (m.values ++ [value]) .none ∧ mv = .stay) ∨
     (m.values.length ≤ i ∧ n' = node1 ∧ mv = .down ∧
       ∃ cs c, node1.transition = .branch cs ∧ cs.lookup value = some c) ∨
     (m.values.length ≤ i ∧ mv = .down ∧
       ∃ cs, node1.transition = .branch cs ∧ cs.lookup value = Option.none ∧
         n' = .mk node1.bits m.values (.branch (cs.insert value TreeNode.empty))))

/-! ### Basic lemmas about children maps and path navigation -/

theorem Children.lookup_insert_self : ∀ (cs : Children) (k : Nat) (c : TreeNode),
    (cs.insert k c).lookup k = some c
| .nil, k, c => by simp [Children.insert, Children.lookup]
| .cons k' c' rest, k, c => by
  by_cases h : k' = k
  · simp [Children.insert, h, Children.lookup]
  · simp [Children.insert, h, Children.lookup, Children.lookup_insert_self rest k c]

theorem Children.lookup_insert_ne : ∀ (cs : Children) (k w : Nat) (c : TreeNode),
    k ≠ w → (cs.insert k c).lookup w = cs.lookup w
| .nil, k, w, c, h => by
  simp [Children.insert, Children.lookup]
  exact fun hh => absurd hh h
| .cons k' c' rest, k, w, c, h => by
  by_cases h' : k' = k
  · subst h'
    simp [Children.insert, Children.lookup, h]
  · simp [Children.insert, h', Children.lookup,
      Children.lookup_insert_ne rest k w c h]

theorem Children.insert_lookup_eq : ∀ (cs : Children) (k : Nat) (c : TreeNode),
    cs.lookup k = some c → cs.insert k c = cs
| .nil, k, c, h => by simp [Children.lookup] at h
| .cons k' c' rest, k, c, h => by
  by_cases h' : k' = k
  · subst h'
    simp [Children.lookup] at h
    simp [Children.insert, h]
  · simp [Children.lookup, h'] at h
    simp [Children.insert, h', Children.insert_lookup_eq rest k c h]

theorem Children.lookup_insert_cases (cs : Children) (k w : Nat) (x c : TreeNode)
    (h : (cs.insert k x).lookup w = some c) :
    (w = k ∧ c = x) ∨ cs.lookup w = some c := by
  by_cases hw : w = k
  · subst hw
    rw [Children.lookup_insert_self] at h
    exact Or.inl ⟨rfl, (Option.some.inj h).symm⟩
  · rw [Children.lookup_insert_ne cs k w x (fun hh => hw hh.symm)] at h
    exact Or.inr h

theorem Children.insert_singleton_ne (k v : Nat) (c x : TreeNode) (h : ¬ k = v) :
    (Children.cons k c Children.nil).insert v x = .cons k c (.cons v x .nil) := by
  simp [Children.insert, h]

theorem getNode_cons (t c : TreeNode) (cs : Children) (v : Nat) (p : List Nat)
    (ht : t.transition = .branch cs) (hc : cs.lookup v = some c) :
    getNode t (v :: p) = getNode c p := by
  cases t with
  | mk b vals tr =>
    simp only [TreeNode.transition] at ht
    subst ht
    simp [getNode, TreeNode.transition, hc]

theorem getNode_cons_inv (t m : TreeNode) (v : Nat) (p : List Nat)
    (h : getNode t (v :: p) = some m) :
    ∃ cs c, t.transition = .branch cs ∧ cs.lookup v = some c ∧ getNode c p = some m := by
  cases t with
  | mk b vals tr =>
    cases tr with
    | none => simp [getNode, TreeNode.transition] at h
    | terminal s => simp [getNode, TreeNode.transition] at h
    | branch cs =>
      simp only [getNode, TreeNode.transition] at h ⊢
      cases hc : cs.lookup v with
      | none => rw [hc] at h; simp at h
      | some c =>
        rw [hc] at h
        exact ⟨cs, c, rfl, hc, h⟩

theorem setNode_cons (t c : TreeNode) (cs : Children) (v : Nat) (p : List Nat) (n : TreeNode)
    (ht : t.transition = .branch cs) (hc : cs.lookup v = some c) :
    setNode t (v :: p) n = .mk t.bits t.values (.branch (cs.insert v (setNode c p n))) := by
  cases t with
  | mk b vals tr =>
    simp only [TreeNode.transition] at ht
    subst ht
    simp [setNode, TreeNode.transition, hc]

theorem getNode_setNode (t : TreeNode) (p : List Nat) (m n : TreeNode)
    (h : getNode t p = some m) : getNode (setNode t p n) p = some n := by
  induction p generalizing t m with
  | nil => simp [getNode, setNode]
  | cons v p' ih =>
    obtain ⟨cs, c, ht, hc, hrec⟩ := getNode_cons_inv t m v p' h
    rw [setNode_cons t c cs v p' n ht hc]
    rw [getNode_cons _ (setNode c p' n) (cs.insert v (setNode c p' n)) v p'
      (by simp [TreeNode.transition]) (Children.lookup_insert_self cs v _)]
    exact ih c m hrec

theorem setNode_getNode_self (t : TreeNode) (p : List Nat) (m : TreeNode)
    (h : getNode t p = some m) : setNode t p m = t := by
  induction p generalizing t m with
  | nil =>
    simp [getNode] at h
    simp [setNode, h]
  | cons v p' ih =>
    obtain ⟨cs, c, ht, hc, hrec⟩ := getNode_cons_inv t m v p' h
    rw [setNode_cons t c cs v p' m ht hc, ih c m hrec, Children.insert_lookup_eq cs v c hc]
    cases t with
    | mk b vals tr =>
      simp only [TreeNode.transition] at ht
      subst ht
      rfl

theorem getNode_snoc (t m c : TreeNode) (cs : Children) (p : List Nat) (v : Nat)
    (h : getNode t p = some m) (ht : m.transition = .branch cs) (hc : cs.lookup v = some c) :
    getNode t (p ++ [v]) = some c := by
  induction p generalizing t m with
  | nil =>
    simp [getNode] at h
    subst h
    rw [List.nil_append, getNode_cons t c cs v [] ht hc]
    simp [getNode]
  | cons w p' ih =>
    obtain ⟨cs', c', ht', hc', hrec⟩ := getNode_cons_inv t m w p' h
    rw [List.cons_append, getNode_cons t c' cs' w (p' ++ [v]) ht' hc']
    exact ih c' m hrec ht

theorem split_at_eq (bits values : List Nat) (tr : Transition) (i : Nat)
    (hv : i < values.length) (hb : i < bits.length) :
    TreeNode.split_at (.mk bits values tr) i =
      .ok (.mk (bits.take (i+1)) (values.take i)
        (.branch (.cons (values.getD i 0)
          (.mk (bits.drop (i+1)) (values.drop (i+1)) tr) .nil))) := by
  unfold TreeNode.split_at
  simp [TreeNode.values, TreeNode.bits, TreeNode.transition, hv, hb]

/-! ### getD helpers -/

theorem getD_take_lt (l : List Nat) (i k : Nat) (h : k < i) :
    (l.take i).getD k 0 = l.getD k 0 := by
  induction l generalizing i k with
  | nil => simp
  | cons a t ih =>
    cases i with
    | zero => omega
    | succ i' =>
      cases k with
      | zero => simp
      | succ k' =>
        simp only [List.take, List.getD_cons_succ]
        exact ih i' k' (Nat.lt_of_succ_lt_succ h)

theorem getD_snoc_len (l : List Nat) (x : Nat) : (l ++ [x]).getD l.length 0 = x := by
  rw [List.getD_append_right l [x] 0 l.length (Nat.le_refl _), Nat.sub_self]
  rfl

/-! ### Inversion of a successful draw -/

theorem drawBitsPhase_ok (m : TreeNode) (i nBits : Nat) (node1 : TreeNode)
    (h : drawBitsPhase m i nBits = .ok node1) :
    (node1 = m ∧ i < m.bits.length ∧ m.bits.getD i 0 = nBits) ∨
    (node1 = .mk (m.bits ++ [nBits]) m.values .none ∧ ¬ i < m.bits.length ∧
      m.transition = .none) := by
  unfold drawBitsPhase at h
  by_cases hib : i < m.bits.length
  · rw [if_pos hib] at h
    by_cases heq : nBits = m.bits.getD i 0
    · rw [if_pos heq] at h
      exact Or.inl ⟨(Except.ok.inj h).symm, hib, heq.symm⟩
    · rw [if_neg heq] at h
      simp at h
  · rw [if_neg hib] at h
    cases htr : m.transition with
    | none =>
      rw [htr] at h
      exact Or.inr ⟨(Except.ok.inj h).symm, hib, rfl⟩
    | branch cs => rw [htr] at h; simp at h
    | terminal s => rw [htr] at h; simp at h

theorem drawValuesPhase_ok (node1 : TreeNode) (i value : Nat) (n' : TreeNode) (mv : Move)
    (h : drawValuesPhase node1 i value = .ok (n', mv)) :
    (i < node1.values.length ∧ node1.values.getD i 0 = value ∧ n' = node1 ∧ mv = .stay) ∨
    (i < node1.values.length ∧ ¬ node1.values.getD i 0 = value ∧ i < node1.bits.length ∧
      n' = .mk (node1.bits.take (i+1)) (node1.values.take i)
        (.branch (.cons (node1.values.getD i 0)
          (.mk (node1.bits.drop (i+1)) (node1.values.drop (i+1)) node1.transition)
          (.cons value TreeNode.empty .nil))) ∧ mv = .down) ∨
    (node1.values.length ≤ i ∧ node1.transition = .none ∧
      n' = .mk node1.bits (node1.values ++ [value]) .none ∧ mv = .stay) ∨
    (node1.values.length ≤ i ∧ n' = node1 ∧ mv = .down ∧
      ∃ cs c, node1.transition = .branch cs ∧ cs.lookup value = some c) ∨
    (node1.values.length ≤ i ∧ mv = .down ∧
      ∃ cs, node1.transition = .branch cs ∧ cs.lookup value = Option.none ∧
        n' = .mk node1.bits node1.values (.branch (cs.insert value TreeNode.empty))) := by
  unfold drawValuesPhase at h
  by_cases hv : i < node1.values.length
  · rw [if_pos hv] at h
    by_cases heq : value = node1.values.getD i 0
    · rw [if_pos heq] at h
      obtain ⟨h1, h2⟩ := Prod.mk.inj (Except.ok.inj h)
      exact Or.inl ⟨hv, heq.symm, h1.symm, h2.symm⟩
    · rw [if_neg heq] at h
      by_cases hb : i < node1.bits.length
      · cases node1 with
        | mk b v tr =>
          simp only [TreeNode.bits, TreeNode.values, TreeNode.transition] at hv hb heq h ⊢
          rw [split_at_eq b v tr i hv hb] at h
          simp only [TreeNode.bits, TreeNode.values, TreeNode.transition] at h
          have hne' : ¬ v.getD i 0 = value := fun hh => heq hh.symm
          rw [Children.insert_singleton_ne (v.getD i 0) value
            (.mk (b.drop (i+1)) (v.drop (i+1)) tr) TreeNode.empty hne'] at h
          obtain ⟨h1, h2⟩ := Prod.mk.inj (Except.ok.inj h)
          exact Or.inr (Or.inl ⟨hv, hne', hb, h1.symm, h2.symm⟩)
      · cases node1 with
        | mk b v tr =>
          simp only [TreeNode.bits, TreeNode.values] at hv hb
          unfold TreeNode.split_at at h
          simp [TreeNode.bits, TreeNode.values, hv, hb] at h
  · rw [if_neg hv] at h
    have hvle : node1.values.length ≤ i := Nat.le_of_not_lt hv
    cases htr : node1.transition with
    | none =>
      rw [htr] at h
      simp only [] at h
      obtain ⟨h1, h2⟩ := Prod.mk.inj (Except.ok.inj h)
      exact Or.inr (Or.inr (Or.inl ⟨hvle, rfl, h1.symm, h2.symm⟩))
    | branch cs =>
      rw [htr] at h
      simp only [] at h
      cases hl : cs.lookup value with
      | some c =>
        rw [hl] at h
        obtain ⟨h1, h2⟩ := Prod.mk.inj (Except.ok.inj h)
        exact Or.inr (Or.inr (Or.inr (Or.inl ⟨hvle, h1.symm, h2.symm, cs, c, rfl, hl⟩)))
      | none =>
        rw [hl] at h
        obtain ⟨h1, h2⟩ := Prod.mk.inj (Except.ok.inj h)
        exact Or.inr (Or.inr (Or.inr (Or.inr ⟨hvle, h2.symm, cs, rfl, hl, h1.symm⟩)))
    | terminal s =>
      rw [htr] at h
      simp only [] at h
      by_cases hs : s = Status.overrun
      · rw [if_pos hs] at h; simp at h
      · rw [if_neg hs] at h; simp at h

theorem drawAtNode_cases (m : TreeNode) (i nBits value : Nat) (n' : TreeNode) (mv : Move)
    (h : drawAtNode m i nBits value = .ok (n', mv)) :
    drawSpec m i nBits value n' mv := by
  unfold drawAtNode at h
  cases hb : drawBitsPhase m i nBits with
  | error e => rw [hb] at h; simp at h
  | ok node1 =>
    rw [hb] at h
    dsimp only at h
    by_cases hbl : i < node1.bits.length
    · rw [if_pos hbl] at h
      have hbo := drawBitsPhase_ok m i nBits node1 hb
      have hval : node1.values = m.values := by
        rcases hbo with ⟨he, _, _⟩ | ⟨he, _, _⟩
        · rw [he]
        · rw [he]
          rfl
      have hge : node1.bits.getD i 0 = nBits := by
        rcases hbo with ⟨he, hlt, hgd⟩ | ⟨he, hlt, _⟩
        · rw [he]; exact hgd
        · rw [he]
          have hlen : i = m.bits.length := by
            have : node1.bits = m.bits ++ [nBits] := by rw [he]; rfl
            rw [this] at hbl
            simp only [List.length_append, List.length_cons, List.length_nil] at hbl
            omega
          simp only [TreeNode.bits]
          rw [hlen]
          exact getD_snoc_len m.bits nBits
      have hbo' : bitsOutcome m i nBits node1 := by
        rcases hbo with ⟨he, hlt, hgd⟩ | ⟨he, hlt, htr⟩
        · exact Or.inl ⟨he, hlt, hgd⟩
        · refine Or.inr ⟨he, ?_, htr⟩
          have : node1.bits = m.bits ++ [nBits] := by rw [he]; rfl
          rw [this] at hbl
          simp only [List.length_append, List.length_cons, List.length_nil] at hbl
          omega
      have hvc := drawValuesPhase_ok node1 i value n' mv h
      refine ⟨node1, hbo', hval, hbl, hge, ?_⟩
      rw [hval] at hvc
      exact hvc
    · rw [if_neg hbl] at h
      simp at h

/-! ### Preservation of well-formedness -/

theorem good_empty : GoodNode TreeNode.empty := GoodNode.live [] [] rfl

theorem good_branch_child (t c : TreeNode) (cs : Children) (w : Nat)
    (hg : GoodNode t) (ht : t.transition = .branch cs) (hc : cs.lookup w = some c) :
    GoodNode c := by
  cases hg with
  | live b v hb => simp [TreeNode.transition] at ht
  | term b v s hb hs => simp [TreeNode.transition] at ht
  | branch b v cs' hb hch =>
    simp only [TreeNode.transition] at ht
    cases ht
    exact hch w c hc

theorem getNode_good (p : List Nat) (t m : TreeNode)
    (hg : GoodNode t) (hm : getNode t p = some m) : GoodNode m := by
  induction p generalizing t m with
  | nil =>
    simp [getNode] at hm
    exact hm ▸ hg
  | cons v p' ih =>
    obtain ⟨cs, c, ht, hc, hrec⟩ := getNode_cons_inv t m v p' hm
    exact ih c m (good_branch_child t c cs v hg ht hc) hrec

theorem setNode_good (p : List Nat) (t m n' : TreeNode)
    (hg : GoodNode t) (hm : getNode t p = some m) (hn : GoodNode n') :
    GoodNode (setNode t p n') := by
  induction p generalizing t m with
  | nil => simpa [setNode] using hn
  | cons v p' ih =>
    obtain ⟨cs, c, ht, hc, hrec⟩ := getNode_cons_inv t m v p' hm
    rw [setNode_cons t c cs v p' n' ht hc]
    cases hg with
    | live b vv hb => simp [TreeNode.transition] at ht
    | term b vv s hb hs => simp [TreeNode.transition] at ht
    | branch b vv cs' hb hch =>
      simp only [TreeNode.transition] at ht
      cases ht
      refine GoodNode.branch _ _ _ hb ?_
      intro w c' hl
      rcases Children.lookup_insert_cases cs v w (setNode c p' n') c' hl with ⟨hw, hc'⟩ | hold
      · rw [hc']
        exact ih c m (hch v c hc) hrec
      · exact hch w c' hold

theorem good_lengths_none (m : TreeNode) (hg : GoodNode m) (ht : m.transition = .none) :
    m.bits.length = m.values.length := by
  cases hg with
  | live b v hb => simpa [TreeNode.bits, TreeNode.values] using hb
  | term b v s hb hs => simp [TreeNode.transition] at ht
  | branch b v cs hb hch => simp [TreeNode.transition] at ht

theorem good_lengths_terminal (m : TreeNode) (st : Status) (hg : GoodNode m)
    (ht : m.transition = .terminal st) :
    m.bits.length = m.values.length ∧ st ≠ .overrun := by
  cases hg with
  | live b v hb => simp [TreeNode.transition] at ht
  | term b v s hb hs =>
    simp only [TreeNode.transition] at ht
    cases ht
    exact ⟨by simpa [TreeNode.bits, TreeNode.values] using hb, hs⟩
  | branch b v cs hb hch => simp [TreeNode.transition] at ht

theorem good_lengths_branch (m : TreeNode) (cs : Children) (hg : GoodNode m)
    (ht : m.transition = .branch cs) :
    m.bits.length = m.values.length + 1 := by
  cases hg with
  | live b v hb => simp [TreeNode.transition] at ht
  | term b v s hb hs => simp [TreeNode.transition] at ht
  | branch b v cs' hb hch => simpa [TreeNode.bits, TreeNode.values] using hb

theorem good_drop (m : TreeNode) (i : Nat) (hg : GoodNode m) (hv : i < m.values.length) :
    GoodNode (.mk (m.bits.drop (i+1)) (m.values.drop (i+1)) m.transition) := by
  cases hg with
  | live b v hb =>
    simp only [TreeNode.bits, TreeNode.values, TreeNode.transition] at hv ⊢
    exact GoodNode.live _ _ (by simp only [List.length_drop]; omega)
  | term b v s hb hs =>
    simp only [TreeNode.bits, TreeNode.values, TreeNode.transition] at hv ⊢
    exact GoodNode.term _ _ _ (by simp only [List.length_drop]; omega) hs
  | branch b v cs hb hch =>
    simp only [TreeNode.bits, TreeNode.values, TreeNode.transition] at hv ⊢
    exact GoodNode.branch _ _ _ (by simp only [List.length_drop]; omega) hch

theorem drawSpec_good (m : TreeNode) (i nBits value : Nat) (n' : TreeNode) (mv : Move)
    (hs : drawSpec m i nBits value n' mv) (hg : GoodNode m) (hi : i ≤ m.values.length) :
    GoodNode n' := by
  obtain ⟨node1, hbo, hval, hbl, hge, hcase⟩ := hs
  rcases hcase with ⟨hv, hveq, hn, hmv⟩ | ⟨hv, hvne, hbl', hn, hmv⟩ |
    ⟨hvle, htr1, hn, hmv⟩ | ⟨hvle, hn, hmv, cs, c, htr1, hl⟩ |
    ⟨hvle, hmv, cs, htr1, hl, hn⟩
  · -- replayed value: either no change, or the appended-bits case is impossible
    rcases hbo with ⟨he, _, _⟩ | ⟨he, hnlt, htr⟩
    · rw [hn, he]; exact hg
    · exfalso
      have hlen := good_lengths_none m hg htr
      omega
  · -- split: both children of the new Branch are well-formed
    rcases hbo with ⟨he, hlt, _⟩ | ⟨he, hnlt, htr⟩
    · rw [he] at hn hbl
      rw [hn]
      refine GoodNode.branch _ _ _ ?_ ?_
      · simp only [List.length_take]
        omega
      · intro w c' hl
        simp only [Children.lookup] at hl
        by_cases h1 : m.values.getD i 0 = w
        · rw [if_pos h1] at hl
          cases hl
          exact good_drop m i hg hv
        · rw [if_neg h1] at hl
          by_cases h2 : value = w
          · rw [if_pos h2] at hl
            cases hl
            exact good_empty
          · rw [if_neg h2] at hl
            cases hl
    · exfalso
      have hlen := good_lengths_none m hg htr
      omega
  · -- append to a Live run: only the appended-bits case is possible
    rcases hbo with ⟨he, hlt, _⟩ | ⟨he, hnlt, htr⟩
    · exfalso
      have htrm : m.transition = Transition.none := by rw [← he]; exact htr1
      have hlen := good_lengths_none m hg htrm
      omega
    · have hlen := good_lengths_none m hg htr
      rw [hn, he]
      simp only [TreeNode.bits]
      refine GoodNode.live _ _ ?_
      simp only [TreeNode.bits, TreeNode.values] at hlen ⊢
      simp only [List.length_append, List.length_cons, List.length_nil]
      omega
  · -- existing Branch child selected: the node is unchanged
    rcases hbo with ⟨he, _, _⟩ | ⟨he, hnlt, htr⟩
    · rw [hn, he]; exact hg
    · exfalso
      rw [he] at htr1
      simp [TreeNode.transition] at htr1
  · -- new Branch child inserted
    rcases hbo with ⟨he, _, _⟩ | ⟨he, hnlt, htr⟩
    · have htrm : m.transition = Transition.branch cs := by rw [← he]; exact htr1
      have hlen := good_lengths_branch m cs hg htrm
      rw [hn, he]
      refine GoodNode.branch _ _ _ hlen ?_
      intro w c' hl
      rcases Children.lookup_insert_cases cs value w TreeNode.empty c' hl with
        ⟨hw, hc'⟩ | hold
      · rw [hc']; exact good_empty
      · exact good_branch_child m c' cs w hg htrm hold
    · exfalso
      rw [he] at htr1
      simp [TreeNode.transition] at htr1

theorem drawSpec_cursor (m : TreeNode) (i nBits value : Nat) (n' : TreeNode) (mv : Move)
    (hs : drawSpec m i nBits value n' mv) (hi : i ≤ m.values.length) :
    (mv = .stay → i + 1 ≤ n'.values.length) ∧
    (mv = .down → ∃ cs c, n'.transition = .branch cs ∧ cs.lookup value = some c) := by
  obtain ⟨node1, hbo, hval, hbl, hge, hcase⟩ := hs
  constructor
  · intro hmv
    rcases hcase with ⟨hv, hveq, hn, hmv'⟩ | ⟨hv, hvne, hbl', hn, hmv'⟩ |
      ⟨hvle, htr1, hn, hmv'⟩ | ⟨hvle, hn, hmv', cs, c, htr1, hl⟩ |
      ⟨hvle, hmv', cs, htr1, hl, hn⟩
    · rw [hn, hval]; omega
    · rw [hmv'] at hmv; cases hmv
    · rw [hn]
      simp only [TreeNode.values] at hi ⊢
      simp only [List.length_append, List.length_cons, List.length_nil]
      omega
    · rw [hmv'] at hmv; cases hmv
    · rw [hmv'] at hmv; cases hmv
  · intro hmv
    rcases hcase with ⟨hv, hveq, hn, hmv'⟩ | ⟨hv, hvne, hbl', hn, hmv'⟩ |
      ⟨hvle, htr1, hn, hmv'⟩ | ⟨hvle, hn, hmv', cs, c, htr1, hl⟩ |
      ⟨hvle, hmv', cs, htr1, hl, hn⟩
    · rw [hmv'] at hmv; cases hmv
    · refine ⟨Children.cons (m.values.getD i 0)
        (.mk (node1.bits.drop (i+1)) (m.values.drop (i+1)) node1.transition)
        (.cons value TreeNode.empty .nil), TreeNode.empty, ?_, ?_⟩
      · rw [hn]
        rfl
      · simp only [Children.lookup]
        rw [if_neg hvne]
        simp
    · rw [hmv'] at hmv; cases hmv
    · exact ⟨cs, c, by rw [hn]; exact htr1, hl⟩
    · refine ⟨cs.insert value TreeNode.empty, TreeNode.empty, ?_, ?_⟩
      · rw [hn]; simp [TreeNode.transition]
      · exact Children.lookup_insert_self cs value TreeNode.empty

theorem concludeAtNode_ok (m : TreeNode) (i : Nat) (st : Status) (n' : TreeNode)
    (h : concludeAtNode m i st = .ok n') :
    m.values.length ≤ i ∧
    ((n' = m ∧ m.transition = .terminal st) ∨
     (m.transition = .none ∧ n' = .mk m.bits m.values (.terminal st))) := by
  unfold concludeAtNode at h
  by_cases hv : i < m.values.length
  · rw [if_pos hv] at h; simp at h
  · rw [if_neg hv] at h
    refine ⟨Nat.le_of_not_lt hv, ?_⟩
    cases htr : m.transition with
    | none =>
      rw [htr] at h
      simp only [] at h
      exact Or.inr ⟨rfl, (Except.ok.inj h).symm⟩
    | branch cs => rw [htr] at h; simp at h
    | terminal s =>
      rw [htr] at h
      simp only [] at h
      by_cases hs : s = st
      · rw [if_pos hs] at h
        subst hs
        exact Or.inl ⟨(Except.ok.inj h).symm, rfl⟩
      · rw [if_neg hs] at h; simp at h

theorem drawStep_inv (nBits value : Nat) (s s' : State)
    (hInv : Inv s) (h : drawStep nBits value s = .ok s') : Inv s' := by
  obtain ⟨hg, m, hm, hi⟩ := hInv
  unfold drawStep at h
  rw [hm] at h
  simp only [] at h
  cases hd : drawAtNode m s.index nBits value with
  | error e => rw [hd] at h; simp at h
  | ok pr =>
    obtain ⟨n', mv⟩ := pr
    rw [hd] at h
    have hspec := drawAtNode_cases m s.index nBits value n' mv hd
    have hgood := drawSpec_good m s.index nBits value n' mv hspec
      (getNode_good s.path s.root m hg hm) hi
    have hcur := drawSpec_cursor m s.index nBits value n' mv hspec hi
    cases mv with
    | stay =>
      simp only [] at h
      have hs' : s' = ⟨setNode s.root s.path n', s.path, s.index + 1⟩ :=
        (Except.ok.inj h).symm
      rw [hs']
      refine ⟨setNode_good s.path s.root m n' hg hm hgood, n', ?_, ?_⟩
      · exact getNode_setNode s.root s.path m n' hm
      · exact hcur.1 rfl
    | down =>
      simp only [] at h
      have hs' : s' = ⟨setNode s.root s.path n', s.path ++ [value], 0⟩ :=
        (Except.ok.inj h).symm
      obtain ⟨cs, c, htr, hl⟩ := hcur.2 rfl
      rw [hs']
      refine ⟨setNode_good s.path s.root m n' hg hm hgood, c, ?_, Nat.zero_le _⟩
      exact getNode_snoc (setNode s.root s.path n') n' c cs s.path value
        (getNode_setNode s.root s.path m n' hm) htr hl

theorem concludeStep_inv (st : Status) (og : Nat) (s s' : State)
    (hInv : Inv s) (h : concludeStep st og s = .ok s') : Inv s' := by
  obtain ⟨hg, m, hm, hi⟩ := hInv
  unfold concludeStep at h
  by_cases hst : st = Status.overrun
  · rw [if_pos hst] at h
    have hss : s' = s := (Except.ok.inj h).symm
    rw [hss]
    exact ⟨hg, m, hm, hi⟩
  · rw [if_neg hst] at h
    rw [hm] at h
    simp only [] at h
    cases hc : concludeAtNode m s.index st with
    | error e => rw [hc] at h; simp at h
    | ok n' =>
      rw [hc] at h
      simp only [] at h
      have hs' : s' = ⟨setNode s.root s.path n', s.path, s.index⟩ :=
        (Except.ok.inj h).symm
      obtain ⟨hle, hcases⟩ := concludeAtNode_ok m s.index st n' hc
      have hgm : GoodNode m := getNode_good s.path s.root m hg hm
      have hgn : GoodNode n' := by
        rcases hcases with ⟨hn, _⟩ | ⟨htr, hn⟩
        · rw [hn]; exact hgm
        · rw [hn]
          cases hgm with
          | live b v hb =>
            exact GoodNode.term _ _ _ hb hst
          | term b v s2 hb hs2 => simp [TreeNode.transition] at htr
          | branch b v cs hb hch => simp [TreeNode.transition] at htr
      have hvals : n'.values = m.values := by
        rcases hcases with ⟨hn, _⟩ | ⟨_, hn⟩ <;> rw [hn]
        rfl
      rw [hs']
      refine ⟨setNode_good s.path s.root m n' hg hm hgn, n', ?_, ?_⟩
      · exact getNode_setNode s.root s.path m n' hm
      · rw [hvals]; exact hi

theorem applyOp_inv (op : Op) (s s' : State)
    (hInv : Inv s) (h : applyOp op s = .ok s') : Inv s' := by
  cases op with
  | draw nBits value => exact drawStep_inv nBits value s s' hInv h
  | conclude st og => exact concludeStep_inv st og s s' hInv h
  | newObserver =>
    have hs' : s' = ⟨s.root, [], 0⟩ := (Except.ok.inj h).symm
    rw [hs']
    exact ⟨hInv.1, s.root, rfl, Nat.zero_le _⟩

theorem reachable_inv (s : State) (hr : Reachable s) : Inv s := by
  induction hr with
  | init => exact ⟨good_empty, TreeNode.empty, rfl, Nat.le_refl 0⟩
  | step op _ h ih => exact applyOp_inv op _ _ ih h

theorem good_localShape (m : TreeNode) (hg : GoodNode m) : localShape m := by
  cases hg with
  | live b v hb =>
    unfold localShape
    simp only [TreeNode.bits, TreeNode.values, TreeNode.transition]
    refine ⟨by omega, by omega, ?_, ?_⟩
    · intro s hs
      cases hs
    · intro cs hcs
      cases hcs
  | term b v s hb hs =>
    unfold localShape
    simp only [TreeNode.bits, TreeNode.values, TreeNode.transition]
    refine ⟨by omega, by omega, ?_, ?_⟩
    · intro s2 hs2
      omega
    · intro cs hcs
      cases hcs
  | branch b v cs hb hch =>
    unfold localShape
    simp only [TreeNode.bits, TreeNode.values, TreeNode.transition]
    refine ⟨by omega, by omega, ?_, ?_⟩
    · intro s2 hs2
      cases hs2
    · intro cs2 hcs2
      omega

/-- C3: for a node with `i < len(values)` (and the maintained shape
`len(values) ≤ len(bits)`), `split_at(i)` succeeds and produces exactly the
node whose `bits` are truncated to `bits[:i+1]`, whose `values` are truncated
to `values[:i]`, and whose transition is a Branch with exactly one child,
keyed by the old `values[i]`, the child carrying `bits[i+1:]`, `values[i+1:]`
and the original transition verbatim. -/
theorem split_at_creates_single_child (bits values : List Nat) (tr : Transition) (i : Nat)
    (hv : i < values.length) (hvb : values.length ≤ bits.length) :
    TreeNode.split_at (.mk bits values tr) i =
      .ok (.mk (bits.take (i+1)) (values.take i)
        (.branch (.cons (values.getD i 0)
          (.mk (bits.drop (i+1)) (values.drop (i+1)) tr) .nil))) :=
  split_at_eq bits values tr i hv (Nat.lt_of_lt_of_le hv hvb)

/-- Witness for C3 at a concrete node: splitting `bits=[8,4], values=[3,1]`
at index 0. -/
theorem split_at_creates_single_child_witness :
    TreeNode.split_at (.mk [8, 4] [3, 1] Transition.none) 0 =
      .ok (.mk [8] [] (.branch (.cons 3 (.mk [4] [1] Transition.none) .nil))) :=
  split_at_creates_single_child [8, 4] [3, 1] Transition.none 0 (by decide) (by decide)

/-- C5: `conclude_test` with the OVERRUN status returns immediately and
leaves the entire state (tree, cursor path, cursor index) unchanged, for
every state whatsoever (in particular for every reachable one). -/
theorem conclude_overrun_returns_unchanged (og : Nat) (t : TreeNode) (p : List Nat) (i : Nat) :
    concludeStep Status.overrun og ⟨t, p, i⟩ = .ok ⟨t, p, i⟩ := rfl

/-- C6: a non-OVERRUN `conclude_test` on a cursor that still has recorded
values ahead of it, or whose node's transition is a Branch dict, raises the
consistency error (the embedding errors before constructing any updated
tree, mirroring the source raising before any mutation). -/
theorem conclude_unconsumed_or_branch_flaky (st : Status) (og : Nat)
    (t m : TreeNode) (p : List Nat) (i : Nat) (hst : st ≠ Status.overrun)
    (hm : getNode t p = some m)
    (h : i < m.values.length ∨ ∃ cs, m.transition = .branch cs) :
    concludeStep st og ⟨t, p, i⟩ = .error (.flaky inconsistentMsg) := by
  unfold concludeStep
  rw [if_neg hst]
  simp only [hm]
  unfold concludeAtNode
  rcases h with h | ⟨cs, h⟩
  · simp [h]
  · by_cases hv : i < m.values.length
    · simp [hv]
    · simp [hv, h]

/-- Witness for C6: concluding VALID while one recorded value is still
unconsumed. -/
theorem conclude_unconsumed_or_branch_flaky_witness :
    concludeStep Status.valid 0 ⟨.mk [1] [0] Transition.none, [], 0⟩ =
      .error (.flaky inconsistentMsg) :=
  conclude_unconsumed_or_branch_flaky Status.valid 0 (.mk [1] [0] Transition.none)
    (.mk [1] [0] Transition.none) [] 0 (by decide) rfl (Or.inl (by decide))

/-- C2 (code bug): concluding a second identical (empty) draw sequence with
INTERESTING after a first trial concluded VALID hits the status-mismatch
branch of `conclude_test`, but the source's `raise Flaky("..." %
(existing.status.name, status))` references the undefined name `existing`,
so the trial raises a NameError instead of the Flaky error naming both
statuses. -/
theorem conclude_status_mismatch_name_error :
    runTrial [] Status.valid 0 ⟨TreeNode.empty, [], 0⟩ =
      .ok ⟨.mk [] [] (.terminal .valid), [], 0⟩ ∧
    concludeStep Status.interesting 0 ⟨.mk [] [] (.terminal .valid), [], 0⟩ =
      .error (.nameError "existing") :=
  ⟨rfl, rfl⟩

/-- C7 (code bug): after a trial `draw(8,5); conclude(VALID)`, a second
cursor replays `draw(8,5)` and then keeps drawing.  At that point the node's
transition is Terminal and the position is past the recorded run, so `i <
len(node.bits)` fails and `assert node.transition is None` raises an
AssertionError — not the consistency (Flaky) error the spec promises (the
dedicated `TypeError` handler that would raise it is unreachable). -/
theorem draw_past_terminal_assertion_error :
    runTrial [(8, 5)] Status.valid 0 ⟨TreeNode.empty, [], 0⟩ =
      .ok ⟨.mk [8] [5] (.terminal .valid), [], 1⟩ ∧
    drawStep 8 5 ⟨.mk [8] [5] (.terminal .valid), [], 0⟩ =
      .ok ⟨.mk [8] [5] (.terminal .valid), [], 1⟩ ∧
    drawStep 8 7 ⟨.mk [8] [5] (.terminal .valid), [], 1⟩ = .error Err.assertionError :=
  ⟨rfl, rfl, rfl⟩

/-- C9 (code bug): a tree whose root was concluded with a Terminal VALID
outcome after zero draws, on which `DataTree.is_exhausted` — a stub
`return False` contradicting its own docstring — still answers `false`. -/
theorem is_exhausted_false_on_terminal_root :
    runTrial [] Status.valid 0 ⟨TreeNode.empty, [], 0⟩ =
      .ok ⟨.mk [] [] (.terminal .valid), [], 0⟩ ∧
    DataTree.is_exhausted ⟨0, .mk [] [] (.terminal .valid)⟩ = false :=
  ⟨rfl, rfl⟩

/-- C4: a draw at position `i` inside the current node's recorded values,
with the recorded bit width and a different value, performs exactly one
split: the node becomes a Branch with exactly two children — the recorded
`values[i]` keyed to the child retaining the recorded subsequent draws
(`bits[i+1:]`, `values[i+1:]`, old transition), and the new value keyed to a
fresh empty node — and the cursor moves to the new child at position 0. -/
theorem draw_divergence_splits (t m : TreeNode) (p : List Nat) (i nBits value : Nat)
    (hm : getNode t p = some m) (hv : i < m.values.length)
    (hvb : m.values.length ≤ m.bits.length)
    (hb : m.bits.getD i 0 = nBits) (hne : value ≠ m.values.getD i 0) :
    drawStep nBits value ⟨t, p, i⟩ =
      .ok ⟨setNode t p (.mk (m.bits.take (i+1)) (m.values.take i)
        (.branch (.cons (m.values.getD i 0)
          (.mk (m.bits.drop (i+1)) (m.values.drop (i+1)) m.transition)
          (.cons value TreeNode.empty .nil)))), p ++ [value], 0⟩ := by
  cases m with
  | mk mb mv mtr =>
    simp only [TreeNode.bits, TreeNode.values, TreeNode.transition] at hv hvb hb hne ⊢
    have hbl : i < mb.length := Nat.lt_of_lt_of_le hv hvb
    have hne' : ¬ mv.getD i 0 = value := fun h => hne h.symm
    have h1 : drawBitsPhase (.mk mb mv mtr) i nBits = .ok (.mk mb mv mtr) := by
      unfold drawBitsPhase
      simp only [TreeNode.bits, TreeNode.transition]
      rw [if_pos hbl, if_pos hb.symm]
    have h2 : drawValuesPhase (.mk mb mv mtr) i value =
        .ok (.mk (mb.take (i+1)) (mv.take i)
          (.branch (.cons (mv.getD i 0)
            (.mk (mb.drop (i+1)) (mv.drop (i+1)) mtr)
            (.cons value TreeNode.empty .nil))), .down) := by
      unfold drawValuesPhase
      simp only [TreeNode.values]
      rw [if_pos hv, if_neg hne, split_at_eq mb mv mtr i hv hbl]
      dsimp only [TreeNode.bits, TreeNode.values, TreeNode.transition]
      rw [Children.insert_singleton_ne (mv.getD i 0) value
        (.mk (mb.drop (i+1)) (mv.drop (i+1)) mtr) TreeNode.empty hne']
    have h3 : drawAtNode (.mk mb mv mtr) i nBits value =
        .ok (.mk (mb.take (i+1)) (mv.take i)
          (.branch (.cons (mv.getD i 0)
            (.mk (mb.drop (i+1)) (mv.drop (i+1)) mtr)
            (.cons value TreeNode.empty .nil))), .down) := by
      unfold drawAtNode
      rw [h1]
      simp only [TreeNode.bits]
      rw [if_pos hbl, h2]
    unfold drawStep
    simp only [hm, h3]

/-- Witness for C4: the root recorded `draw(1,0)` concluded VALID; a second
cursor draws `draw(1,1)`. -/
theorem draw_divergence_splits_witness :
    drawStep 1 1 ⟨.mk [1] [0] (.terminal .valid), [], 0⟩ =
      .ok ⟨.mk [1] [] (.branch (.cons 0 (.mk [] [] (.terminal .valid))
        (.cons 1 (.mk [] [] .none) .nil))), [1], 0⟩ :=
  draw_divergence_splits (.mk [1] [0] (.terminal .valid))
    (.mk [1] [0] (.terminal .valid)) [] 0 1 1 rfl (by decide) (by decide)
    (by decide) (by decide)

/-- C8 counterexample: a reachable state (trial `draw(1,0); conclude(VALID)`,
then a fresh observer drawing `draw(1,1)`, which splits the root) whose root
has a Branch transition but `len(values) = 0 ≠ 1 = len(bit_widths)` — so a
Branch node does not satisfy the claimed `len(values) == len(bit_widths)`. -/
theorem reachable_branch_with_unequal_lengths :
    Reachable ⟨.mk [1] [] (.branch (.cons 0 (.mk [] [] (.terminal .valid))
      (.cons 1 (.mk [] [] .none) .nil))), [1], 0⟩ ∧
    (∃ cs, (TreeNode.mk [1] [] (.branch (.cons 0 (.mk [] [] (.terminal .valid))
      (.cons 1 (.mk [] [] .none) .nil)))).transition = .branch cs) ∧
    (TreeNode.mk [1] [] (.branch (.cons 0 (.mk [] [] (.terminal .valid))
      (.cons 1 (.mk [] [] .none) .nil)))).values.length ≠
    (TreeNode.mk [1] [] (.branch (.cons 0 (.mk [] [] (.terminal .valid))
      (.cons 1 (.mk [] [] .none) .nil)))).bits.length := by
  refine ⟨?_, ⟨_, rfl⟩, by decide⟩
  have h1 : Reachable ⟨.mk [1] [0] Transition.none, [], 1⟩ :=
    Reachable.step (.draw 1 0) Reachable.init rfl
  have h2 : Reachable ⟨.mk [1] [0] (.terminal .valid), [], 1⟩ :=
    Reachable.step (.conclude .valid 0) h1 rfl
  have h3 : Reachable ⟨.mk [1] [0] (.terminal .valid), [], 0⟩ :=
    Reachable.step .newObserver h2 rfl
  exact Reachable.step (.draw 1 1) h3 rfl

/-- C8 (amended): in every reachable tree state, every node (every path the
tree structure denotes) satisfies `len(values) ≤ len(bit_widths) ≤
len(values) + 1`; a Terminal transition forces `len(bit_widths) ==
len(values)`, and a Branch transition forces `len(bit_widths) ==
len(values) + 1` (the claimed equality for Branch nodes is refuted by
`reachable_branch_with_unequal_lengths`). -/
theorem reachable_node_shape (s : State) (p : List Nat) (m : TreeNode)
    (hr : Reachable s) (hm : getNode s.root p = some m) :
    m.values.length ≤ m.bits.length ∧ m.bits.length ≤ m.values.length + 1 ∧
    (∀ st, m.transition = .terminal st → m.bits.length = m.values.length) ∧
    (∀ cs, m.transition = .branch cs → m.bits.length = m.values.length + 1) :=
  good_localShape m (getNode_good p s.root m (reachable_inv s hr).1 hm)

/-- Witness for C8 (amended), at the initial reachable state. -/
theorem reachable_node_shape_witness :
    TreeNode.empty.values.length ≤ TreeNode.empty.bits.length ∧
    TreeNode.empty.bits.length ≤ TreeNode.empty.values.length + 1 ∧
    (∀ st, TreeNode.empty.transition = .terminal st →
      TreeNode.empty.bits.length = TreeNode.empty.values.length) ∧
    (∀ cs, TreeNode.empty.transition = .branch cs →
      TreeNode.empty.bits.length = TreeNode.empty.values.length + 1) :=
  reachable_node_shape ⟨TreeNode.empty, [], 0⟩ [] TreeNode.empty Reachable.init rfl

/-- C10: in every reachable tree state, no node's transition is the OVERRUN
status — every Terminal transition records a non-OVERRUN status, because
`conclude_test` returns before mutating on OVERRUN. -/
theorem reachable_no_overrun_transition (s : State) (p : List Nat) (m : TreeNode)
    (st : Status) (hr : Reachable s) (hm : getNode s.root p = some m)
    (ht : m.transition = .terminal st) : st ≠ Status.overrun := by
  have hg := getNode_good p s.root m (reachable_inv s hr).1 hm
  exact (good_lengths_terminal m st hg ht).2

/-- Witness for C10, at the reachable state whose root was concluded VALID
after zero draws. -/
theorem reachable_no_overrun_transition_witness : Status.valid ≠ Status.overrun :=
  reachable_no_overrun_transition ⟨.mk [] [] (.terminal .valid), [], 0⟩ []
    (.mk [] [] (.terminal .valid)) .valid
    (Reachable.step (.conclude .valid 0) Reachable.init rfl) rfl rfl

/-! ### The replay simulation: future-tree lemmas -/

theorem localFut_refl (j : Nat) (a : TreeNode) : LocalFut j a a :=
  ⟨fun _ _ hk => ⟨hk, rfl⟩, fun _ _ hk => ⟨hk, rfl⟩⟩

theorem localFut_of_eq (j : Nat) (a b : TreeNode)
    (hb : b.bits = a.bits) (hv : b.values = a.values) : LocalFut j a b :=
  ⟨fun _ _ hk => ⟨by rw [hv]; exact hk, by rw [hv]⟩,
   fun _ _ hk => ⟨by rw [hb]; exact hk, by rw [hb]⟩⟩

theorem localFut_trans (j j' : Nat) (a b c : TreeNode)
    (h1 : LocalFut j a b) (h2 : LocalFut j' b c) (hj : j ≤ j') : LocalFut j a c := by
  constructor
  · intro k hk hka
    obtain ⟨hb1, he1⟩ := h1.1 k hk hka
    obtain ⟨hb2, he2⟩ := h2.1 k (Nat.lt_of_lt_of_le hk hj) hb1
    exact ⟨hb2, by rw [he2, he1]⟩
  · intro k hk hka
    obtain ⟨hb1, he1⟩ := h1.2 k hk hka
    obtain ⟨hb2, he2⟩ := h2.2 k (Nat.lt_of_lt_of_le hk hj) hb1
    exact ⟨hb2, by rw [he2, he1]⟩

theorem future_refl (p : List Nat) (j : Nat) (t m : TreeNode)
    (hm : getNode t p = some m) : Future p j t t := by
  induction p generalizing t m with
  | nil => exact localFut_refl j t
  | cons v p' ih =>
    obtain ⟨cs, c, ht, hc, hrec⟩ := getNode_cons_inv t m v p' hm
    exact ⟨rfl, rfl, cs, cs, ht, ht, c, c, hc, hc, ih c m hrec⟩

theorem future_getAt (p : List Nat) (j : Nat) (t t1 m : TreeNode)
    (hf : Future p j t t1) (hm : getNode t p = some m) :
    ∃ m1, getNode t1 p = some m1 ∧ LocalFut j m m1 := by
  induction p generalizing t t1 m with
  | nil =>
    simp only [Future] at hf
    simp only [getNode] at hm
    cases hm
    exact ⟨t1, rfl, hf⟩
  | cons v p' ih =>
    simp only [Future] at hf
    obtain ⟨hb, hv, cs, cs', ht, ht', c, c', hc, hc', hfut⟩ := hf
    obtain ⟨cs0, c0, ht0, hc0, hrec⟩ := getNode_cons_inv t m v p' hm
    rw [ht] at ht0
    cases ht0
    rw [hc] at hc0
    cases hc0
    obtain ⟨m1, hm1, lf⟩ := ih c c' m hfut hrec
    exact ⟨m1, by rw [getNode_cons t1 c' cs' v p' ht' hc']; exact hm1, lf⟩

theorem future_getSnoc (p : List Nat) (v : Nat) (j : Nat) (t t1 m : TreeNode)
    (hf : Future (p ++ [v]) j t t1) (hm : getNode t p = some m) :
    ∃ m1, getNode t1 p = some m1 ∧ m1.bits = m.bits ∧ m1.values = m.values ∧
      ∃ cs cs1, m.transition = .branch cs ∧ m1.transition = .branch cs1 ∧
        ∃ c c1, cs.lookup v = some c ∧ cs1.lookup v = some c1 := by
  induction p generalizing t t1 m with
  | nil =>
    rw [List.nil_append] at hf
    simp only [Future] at hf
    obtain ⟨hb, hv, cs, cs', ht, ht', c, c', hc, hc', _⟩ := hf
    simp only [getNode] at hm
    cases hm
    exact ⟨t1, rfl, hb, hv, cs, cs', ht, ht', c, c', hc, hc'⟩
  | cons w p' ih =>
    rw [List.cons_append] at hf
    simp only [Future] at hf
    obtain ⟨hb, hv, cs, cs', ht, ht', c, c', hc, hc', hfut⟩ := hf
    obtain ⟨cs0, c0, ht0, hc0, hrec⟩ := getNode_cons_inv t m w p' hm
    rw [ht] at ht0
    cases ht0
    rw [hc] at hc0
    cases hc0
    obtain ⟨m1, hm1, rest⟩ := ih c c' m hfut hrec
    exact ⟨m1, by rw [getNode_cons t1 c' cs' w p' ht' hc']; exact hm1, rest⟩

theorem future_trans (p : List Nat) (rest : List Nat) (j j' : Nat)
    (t m n' t1 : TreeNode) (hm : getNode t p = some m) (hl : LocalFut j m n')
    (hf : Future (p ++ rest) j' (setNode t p n') t1)
    (hj : rest = [] → j ≤ j') : Future p j t t1 := by
  induction p generalizing t m t1 with
  | nil =>
    simp only [getNode] at hm
    cases hm
    simp only [setNode, List.nil_append] at hf
    cases rest with
    | nil =>
      simp only [Future] at hf
      exact localFut_trans j j' t n' t1 hl hf (hj rfl)
    | cons v r =>
      simp only [Future] at hf
      obtain ⟨hb, hv, _⟩ := hf
      exact localFut_trans j j t n' t1 hl (localFut_of_eq j n' t1 hb hv) (Nat.le_refl j)
  | cons w p2 ih =>
    obtain ⟨cs, c, ht, hc, hrec⟩ := getNode_cons_inv t m w p2 hm
    rw [setNode_cons t c cs w p2 n' ht hc] at hf
    rw [List.cons_append] at hf
    simp only [Future] at hf
    obtain ⟨hb, hv, csA, cs1, htA, ht1, cA, c1, hcA, hc1, hfut⟩ := hf
    simp only [TreeNode.transition] at htA
    cases htA
    rw [Children.lookup_insert_self cs w (setNode c p2 n')] at hcA
    cases hcA
    simp only [TreeNode.bits, TreeNode.values] at hb hv
    exact ⟨hb, hv, cs, cs1, ht, ht1, c, c1, hc, hc1, ih c m c1 hrec hl hfut⟩

theorem TreeNode.bits_mk (b v : List Nat) (tr : Transition) :
    (TreeNode.mk b v tr).bits = b := rfl

theorem TreeNode.values_mk (b v : List Nat) (tr : Transition) :
    (TreeNode.mk b v tr).values = v := rfl

theorem TreeNode.transition_mk (b v : List Nat) (tr : Transition) :
    (TreeNode.mk b v tr).transition = tr := rfl

theorem bitsOutcome_localFut (m : TreeNode) (i nB : Nat) (node1 : TreeNode) (j : Nat)
    (hbo : bitsOutcome m i nB node1) : LocalFut j m node1 := by
  rcases hbo with ⟨he, _, _⟩ | ⟨he, _, _⟩
  · rw [he]; exact localFut_refl j m
  · rw [he]
    constructor
    · intro k hk hka
      exact ⟨by simp only [TreeNode.values_mk]; exact hka, by simp only [TreeNode.values_mk]⟩
    · intro k hk hka
      refine ⟨?_, ?_⟩
      · simp only [TreeNode.bits_mk, List.length_append, List.length_cons, List.length_nil]
        omega
      · simp only [TreeNode.bits_mk]
        exact List.getD_append m.bits [nB] 0 k hka

theorem drawSpec_localFut (m : TreeNode) (i nB v : Nat) (n' : TreeNode) (mv : Move)
    (hs : drawSpec m i nB v n' mv) : LocalFut i m n' := by
  obtain ⟨node1, hbo, hval, hbl, hge, hcase⟩ := hs
  have l1 : LocalFut i m node1 := bitsOutcome_localFut m i nB node1 i hbo
  have l2 : LocalFut i node1 n' := by
    rcases hcase with ⟨hv, hveq, hn, hmv⟩ | ⟨hv, hvne, hbl', hn, hmv⟩ |
      ⟨hvle, htr1, hn, hmv⟩ | ⟨hvle, hn, hmv, cs, c, htr1, hl⟩ |
      ⟨hvle, hmv, cs, htr1, hl, hn⟩
    · rw [hn]; exact localFut_refl i node1
    · rw [hn]
      constructor
      · intro k hk hka
        rw [hval] at hka
        refine ⟨?_, ?_⟩
        · simp only [TreeNode.values_mk, List.length_take]
          omega
        · simp only [TreeNode.values_mk]
          rw [getD_take_lt m.values i k hk, hval]
      · intro k hk hka
        refine ⟨?_, ?_⟩
        · simp only [TreeNode.bits_mk, List.length_take]
          omega
        · simp only [TreeNode.bits_mk]
          exact getD_take_lt node1.bits (i+1) k (Nat.lt_succ_of_lt hk)
    · rw [hn]
      constructor
      · intro k hk hka
        rw [hval] at hka
        refine ⟨?_, ?_⟩
        · simp only [TreeNode.values_mk, List.length_append, List.length_cons, List.length_nil]
          omega
        · simp only [TreeNode.values_mk]
          rw [List.getD_append m.values [v] 0 k hka, hval]
      · intro k hk hka
        exact ⟨by simp only [TreeNode.bits_mk]; exact hka, by simp only [TreeNode.bits_mk]⟩
    · rw [hn]; exact localFut_refl i node1
    · rw [hn]
      refine localFut_of_eq i node1 _ (by simp only [TreeNode.bits_mk]) ?_
      simp only [TreeNode.values_mk]
      exact hval.symm
  exact localFut_trans i i m node1 n' l1 l2 (Nat.le_refl i)

theorem drawSpec_stay_replay (m : TreeNode) (i nB v : Nat) (n' : TreeNode) (mv : Move)
    (hs : drawSpec m i nB v n' mv) (hi : i ≤ m.values.length) (hmv : mv = .stay) :
    i < n'.values.length ∧ n'.values.getD i 0 = v ∧
    i < n'.bits.length ∧ n'.bits.getD i 0 = nB := by
  obtain ⟨node1, hbo, hval, hbl, hge, hcase⟩ := hs
  rcases hcase with ⟨hv, hveq, hn, hmv'⟩ | ⟨_, _, _, _, hmv'⟩ |
    ⟨hvle, htr1, hn, hmv'⟩ | ⟨_, _, hmv', _⟩ | ⟨_, hmv', _⟩
  · subst hn
    exact ⟨by rw [hval]; exact hv, by rw [hval]; exact hveq, hbl, hge⟩
  · rw [hmv'] at hmv; cases hmv
  · subst hn
    have hieq : i = m.values.length := Nat.le_antisymm hi hvle
    refine ⟨?_, ?_, hbl, hge⟩
    · simp only [TreeNode.values_mk, List.length_append, List.length_cons, List.length_nil]
      omega
    · simp only [TreeNode.values_mk]
      rw [hieq]
      exact getD_snoc_len m.values v
  · rw [hmv'] at hmv; cases hmv
  · rw [hmv'] at hmv; cases hmv

theorem drawSpec_down_replay (m : TreeNode) (i nB v : Nat) (n' : TreeNode) (mv : Move)
    (hs : drawSpec m i nB v n' mv) (hmv : mv = .down) :
    (i < n'.bits.length ∧ n'.bits.getD i 0 = nB ∧ n'.values.length ≤ i) ∧
    (∃ cs c, n'.transition = .branch cs ∧ cs.lookup v = some c) := by
  obtain ⟨node1, hbo, hval, hbl, hge, hcase⟩ := hs
  rcases hcase with ⟨_, _, _, hmv'⟩ | ⟨hv, hvne, hbl', hn, hmv'⟩ |
    ⟨_, _, _, hmv'⟩ | ⟨hvle, hn, hmv', cs, c, htr1, hl⟩ |
    ⟨hvle, hmv', cs, htr1, hl, hn⟩
  · rw [hmv'] at hmv; cases hmv
  · subst hn
    constructor
    · refine ⟨?_, ?_, ?_⟩
      · simp only [TreeNode.bits_mk, List.length_take]
        omega
      · simp only [TreeNode.bits_mk]
        rw [getD_take_lt node1.bits (i+1) i (Nat.lt_succ_self i)]
        exact hge
      · simp only [TreeNode.values_mk, List.length_take]
        omega
    · refine ⟨Children.cons (m.values.getD i 0)
        (.mk (node1.bits.drop (i+1)) (m.values.drop (i+1)) node1.transition)
        (.cons v TreeNode.empty .nil), TreeNode.empty, rfl, ?_⟩
      simp only [Children.lookup]
      rw [if_neg hvne]
      simp
  · rw [hmv'] at hmv; cases hmv
  · subst hn
    exact ⟨⟨hbl, hge, by rw [hval]; exact hvle⟩, cs, c, htr1, hl⟩
  · subst hn
    exact ⟨⟨hbl, hge, hvle⟩, cs.insert v TreeNode.empty, TreeNode.empty, rfl,
      Children.lookup_insert_self cs v TreeNode.empty⟩

theorem drawStep_replay_stay (r : TreeNode) (p : List Nat) (i nB v : Nat) (m1 : TreeNode)
    (hm1 : getNode r p = some m1) (hb : i < m1.bits.length) (hbe : m1.bits.getD i 0 = nB)
    (hv : i < m1.values.length) (hve : m1.values.getD i 0 = v) :
    drawStep nB v ⟨r, p, i⟩ = .ok ⟨r, p, i + 1⟩ := by
  have h1 : drawBitsPhase m1 i nB = .ok m1 := by
    unfold drawBitsPhase
    rw [if_pos hb, if_pos hbe.symm]
  have h2 : drawValuesPhase m1 i v = .ok (m1, .stay) := by
    unfold drawValuesPhase
    rw [if_pos hv, if_pos hve.symm]
  have h3 : drawAtNode m1 i nB v = .ok (m1, .stay) := by
    unfold drawAtNode
    rw [h1]
    simp only []
    rw [if_pos hb, h2]
  unfold drawStep
  simp only [hm1, h3]
  rw [setNode_getNode_self r p m1 hm1]

theorem drawStep_replay_down (r : TreeNode) (p : List Nat) (i nB v : Nat)
    (m1 : TreeNode) (cs : Children) (c : TreeNode)
    (hm1 : getNode r p = some m1) (hb : i < m1.bits.length) (hbe : m1.bits.getD i 0 = nB)
    (hvle : m1.values.length ≤ i) (htr : m1.transition = .branch cs)
    (hl : cs.lookup v = some c) :
    drawStep nB v ⟨r, p, i⟩ = .ok ⟨r, p ++ [v], 0⟩ := by
  have h1 : drawBitsPhase m1 i nB = .ok m1 := by
    unfold drawBitsPhase
    rw [if_pos hb, if_pos hbe.symm]
  have h2 : drawValuesPhase m1 i v = .ok (m1, .down) := by
    unfold drawValuesPhase
    rw [if_neg (Nat.not_lt.mpr hvle), htr]
    simp only []
    rw [hl]
  have h3 : drawAtNode m1 i nB v = .ok (m1, .down) := by
    unfold drawAtNode
    rw [h1]
    simp only []
    rw [if_pos hb, h2]
  unfold drawStep
  simp only [hm1, h3]
  rw [setNode_getNode_self r p m1 hm1]

theorem concludeStep_replay (st : Status) (og : Nat) (t : TreeNode)
    (p : List Nat) (i : Nat) (m : TreeNode) (s' : State)
    (hm : getNode t p = some m) (h : concludeStep st og ⟨t, p, i⟩ = .ok s') :
    concludeStep st og ⟨s'.root, p, i⟩ = .ok s' := by
  by_cases hst : st = Status.overrun
  · unfold concludeStep at h ⊢
    rw [if_pos hst] at h ⊢
    have hs' := Except.ok.inj h
    rw [← hs']
  · unfold concludeStep at h ⊢
    rw [if_neg hst] at h ⊢
    rw [hm] at h
    simp only [] at h
    cases hc : concludeAtNode m i st with
    | error e => rw [hc] at h; simp at h
    | ok n' =>
      rw [hc] at h
      simp only [] at h
      have hs' : s' = ⟨setNode t p n', p, i⟩ := (Except.ok.inj h).symm
      obtain ⟨hle, hcases⟩ := concludeAtNode_ok m i st n' hc
      have hroot : getNode s'.root p = some n' := by
        rw [hs']
        exact getNode_setNode t p m n' hm
      have hvals : n'.values = m.values := by
        rcases hcases with ⟨hn, _⟩ | ⟨_, hn⟩
        · rw [hn]
        · rw [hn]
          rfl
      have htr' : n'.transition = .terminal st := by
        rcases hcases with ⟨hn, htr⟩ | ⟨_, hn⟩
        · rw [hn]; exact htr
        · rw [hn]
          rfl
      have hc2 : concludeAtNode n' i st = .ok n' := by
        unfold concludeAtNode
        rw [if_neg (by rw [hvals]; exact Nat.not_lt.mpr hle), htr']
        simp
      rw [hroot]
      simp only []
      rw [hc2]
      simp only []
      rw [hs']
      rw [setNode_getNode_self (setNode t p n') p n' (getNode_setNode t p m n' hm)]

theorem run_future : ∀ (draws : List (Nat × Nat)) (st : Status) (og : Nat)
    (p : List Nat) (i : Nat) (t : TreeNode) (s' : State) (m : TreeNode),
    getNode t p = some m → runTrial draws st og ⟨t, p, i⟩ = .ok s' →
    Future p i t s'.root
| [], st, og, p, i, t, s', m, hm, h => by
  unfold runTrial at h
  by_cases hst : st = Status.overrun
  · unfold concludeStep at h
    rw [if_pos hst] at h
    have hs' : s' = ⟨t, p, i⟩ := (Except.ok.inj h).symm
    rw [hs']
    exact future_refl p i t m hm
  · unfold concludeStep at h
    rw [if_neg hst, hm] at h
    simp only [] at h
    cases hc : concludeAtNode m i st with
    | error e => rw [hc] at h; simp at h
    | ok n' =>
      rw [hc] at h
      simp only [] at h
      have hs' : s' = ⟨setNode t p n', p, i⟩ := (Except.ok.inj h).symm
      rw [hs']
      obtain ⟨hle, hcases⟩ := concludeAtNode_ok m i st n' hc
      have hl : LocalFut i m n' := by
        rcases hcases with ⟨hn, _⟩ | ⟨_, hn⟩
        · rw [hn]; exact localFut_refl i m
        · rw [hn]
          exact localFut_of_eq i m _ rfl rfl
      refine future_trans p [] i i t m n' (setNode t p n') hm hl ?_ (fun _ => Nat.le_refl i)
      rw [List.append_nil]
      exact future_refl p i (setNode t p n') n' (getNode_setNode t p m n' hm)
| (n, v) :: rest, st, og, p, i, t, s', m, hm, h => by
  unfold runTrial at h
  cases hd : drawStep n v ⟨t, p, i⟩ with
  | error e => rw [hd] at h; simp at h
  | ok s1 =>
    rw [hd] at h
    simp only [] at h
    unfold drawStep at hd
    rw [hm] at hd
    simp only [] at hd
    cases hda : drawAtNode m i n v with
    | error e => rw [hda] at hd; simp at hd
    | ok pr =>
      obtain ⟨n', mv⟩ := pr
      rw [hda] at hd
      have hspec := drawAtNode_cases m i n v n' mv hda
      have hl : LocalFut i m n' := drawSpec_localFut m i n v n' mv hspec
      cases mv with
      | stay =>
        simp only [] at hd
        have hs1 : s1 = ⟨setNode t p n', p, i + 1⟩ := (Except.ok.inj hd).symm
        rw [hs1] at h
        have hF := run_future rest st og p (i+1) (setNode t p n') s' n'
          (getNode_setNode t p m n' hm) h
        refine future_trans p [] i (i+1) t m n' s'.root hm hl ?_ (fun _ => Nat.le_succ i)
        rw [List.append_nil]
        exact hF
      | down =>
        simp only [] at hd
        have hs1 : s1 = ⟨setNode t p n', p ++ [v], 0⟩ := (Except.ok.inj hd).symm
        rw [hs1] at h
        obtain ⟨_, cs', c, htr', hl'⟩ := drawSpec_down_replay m i n v n' .down hspec rfl
        have hF := run_future rest st og (p ++ [v]) 0 (setNode t p n') s' c
          (getNode_snoc (setNode t p n') n' c cs' p v (getNode_setNode t p m n' hm) htr' hl') h
        exact future_trans p [v] i 0 t m n' s'.root hm hl hF (fun hab => nomatch hab)

theorem run_replay : ∀ (draws : List (Nat × Nat)) (st : Status) (og : Nat)
    (p : List Nat) (i : Nat) (t : TreeNode) (s' : State) (m : TreeNode),
    getNode t p = some m → i ≤ m.values.length →
    runTrial draws st og ⟨t, p, i⟩ = .ok s' →
    runTrial draws st og ⟨s'.root, p, i⟩ = .ok s'
| [], st, og, p, i, t, s', m, hm, _, h => by
  unfold runTrial at h ⊢
  exact concludeStep_replay st og t p i m s' hm h
| (n, v) :: rest, st, og, p, i, t, s', m, hm, hi, h => by
  unfold runTrial at h ⊢
  cases hd : drawStep n v ⟨t, p, i⟩ with
  | error e => rw [hd] at h; simp at h
  | ok s1 =>
    rw [hd] at h
    simp only [] at h
    unfold drawStep at hd
    rw [hm] at hd
    simp only [] at hd
    cases hda : drawAtNode m i n v with
    | error e => rw [hda] at hd; simp at hd
    | ok pr =>
      obtain ⟨n', mv⟩ := pr
      rw [hda] at hd
      have hspec := drawAtNode_cases m i n v n' mv hda
      cases mv with
      | stay =>
        simp only [] at hd
        have hs1 : s1 = ⟨setNode t p n', p, i + 1⟩ := (Except.ok.inj hd).symm
        rw [hs1] at h
        have hm1' : getNode (setNode t p n') p = some n' := getNode_setNode t p m n' hm
        have hF := run_future rest st og p (i+1) (setNode t p n') s' n' hm1' h
        obtain ⟨m1, hm1, lf⟩ := future_getAt p (i+1) (setNode t p n') s'.root n' hF hm1'
        obtain ⟨hvlt, hveq, hblt, hbeq⟩ := drawSpec_stay_replay m i n v n' .stay hspec hi rfl
        obtain ⟨hv1, hveq1⟩ := lf.1 i (Nat.lt_succ_self i) hvlt
        obtain ⟨hb1, hbeq1⟩ := lf.2 i (Nat.lt_succ_self i) hblt
        have hstep := drawStep_replay_stay s'.root p i n v m1 hm1 hb1
          (by rw [hbeq1]; exact hbeq) hv1 (by rw [hveq1]; exact hveq)
        rw [hstep]
        simp only []
        exact run_replay rest st og p (i+1) (setNode t p n') s' n' hm1' hvlt h
      | down =>
        simp only [] at hd
        have hs1 : s1 = ⟨setNode t p n', p ++ [v], 0⟩ := (Except.ok.inj hd).symm
        rw [hs1] at h
        have hm0 : getNode (setNode t p n') p = some n' := getNode_setNode t p m n' hm
        obtain ⟨⟨hblt, hbeq, hvle'⟩, cs', c, htr', hl'⟩ :=
          drawSpec_down_replay m i n v n' .down hspec rfl
        have hm1' : getNode (setNode t p n') (p ++ [v]) = some c :=
          getNode_snoc (setNode t p n') n' c cs' p v hm0 htr' hl'
        have hF := run_future rest st og (p ++ [v]) 0 (setNode t p n') s' c hm1' h
        obtain ⟨m1, hm1, hbits, hvals, cs0, cs1, htr0, htr1, c0, c1, hc0, hc1⟩ :=
          future_getSnoc p v 0 (setNode t p n') s'.root n' hF hm0
        have hstep := drawStep_replay_down s'.root p i n v m1 cs1 c1 hm1
          (by rw [hbits]; exact hblt) (by rw [hbits]; exact hbeq)
          (by rw [hvals]; exact hvle') htr1 hc1
        rw [hstep]
        simp only []
        exact run_replay rest st og (p ++ [v]) 0 (setNode t p n') s' c hm1' (Nat.zero_le _) h

/-- C1: for every trial (a list of draws followed by one non-OVERRUN
conclusion) that was successfully recorded into a tree — producing tree
`s'.root` — replaying the identical draws and the identical conclusion
through a second cursor obtained from `new_observer()` raises no error and
returns the exact same tree `s'.root` (so nothing changed and, the state
being equal, no new `TreeNode` was allocated), with the replay cursor ending
where the recording cursor ended. -/
theorem replay_recorded_trial (draws : List (Nat × Nat)) (st : Status) (og : Nat)
    (t : TreeNode) (s' : State) (_hst : st ≠ Status.overrun)
    (h : runTrial draws st og ⟨t, [], 0⟩ = .ok s') :
    runTrial draws st og ⟨s'.root, [], 0⟩ = .ok s' :=
  run_replay draws st og [] 0 t s' t rfl (Nat.zero_le _) h

/-- Witness for C1: the trial `draw(1,0); conclude(VALID)` recorded from the
empty tree, then replayed. -/
theorem replay_recorded_trial_witness :
    runTrial [(1, 0)] Status.valid 0 ⟨.mk [1] [0] (.terminal .valid), [], 0⟩ =
      .ok ⟨.mk [1] [0] (.terminal .valid), [], 1⟩ :=
  replay_recorded_trial [(1, 0)] Status.valid 0 TreeNode.empty
    ⟨.mk [1] [0] (.terminal .valid), [], 1⟩ (by decide) rfl

end DataTreeSpec
